import Mathlib

/-!
Shallow embedding of the EM-Sandbox-2D solver core (`services/solver.ts`) and
its data model (`types.ts`, `constants.ts`).

Conventions of the embedding:
* Grids are flat row-major functions `ℕ → ℚ` (the code uses `Float64Array` /
  `Float32Array`; floating point is abstracted to exact rationals).
* In-place sequential loops that write one cell per step are embedded as
  `List.foldl` of `Function.update` over the row-major list of visited cells.
* Loops whose writes are independent of each other within one pass (the four
  edge-enforcement passes, the rasterizer fill, the heatmap fill) are embedded
  pointwise; the sequential composition *between* passes is kept, because the
  later edge passes read corner cells written by earlier ones.
-/

namespace EMSandbox

/-- Grid side length used by the application (`GRID_SIZE = 100` in `constants.ts`). -/
def GRID_SIZE : ℕ := 100

/-- Number of full sweeps per `solveStep` call (`ITERATIONS_PER_FRAME = 40` in `constants.ts`). -/
def ITERATIONS_PER_FRAME : ℕ := 40

/-- `idx(x, y) = y * GRID_SIZE + x` : row-major flat index (from `solver.ts`). -/
def idx (N x y : ℕ) : ℕ := y * N + x

/-- `BoundaryType` from `types.ts`. -/
inductive BoundaryType
  | dirichlet
  | neumann
deriving DecidableEq

/-- The `voltageParam` field of a plate references one of the two voltages (`types.ts`). -/
inductive VoltageParam
  | voltageTop
  | voltageBottom
deriving DecidableEq

/-- `ColorMapType` from `types.ts`. -/
inductive ColorMapType
  | turbo
  | jet
  | hot
  | gray
  | magma
deriving DecidableEq

/-- The solver-relevant fields of `SimulationParams` from `types.ts`. -/
structure SimulationParams where
  epsilonSlab : ℚ
  epsilonBg : ℚ
  voltageTop : ℚ
  voltageBottom : ℚ
  colorMap : ColorMapType
  boundaryTop : BoundaryType
  boundaryBottom : BoundaryType
  boundaryLeft : BoundaryType
  boundaryRight : BoundaryType

/-- `SlabState` from `types.ts`: an axis-aligned rectangle in grid coordinates. -/
structure SlabState where
  x : ℚ
  y : ℚ
  width : ℚ
  height : ℚ

/-- `PlateState` from `types.ts` (the `id` string plays no numerical role). -/
structure PlateState where
  x : ℚ
  y : ℚ
  width : ℚ
  height : ℚ
  voltageParam : VoltageParam

/-- `params[plate.voltageParam]` : dynamic field lookup in `embedPlates`. -/
def paramVoltage (p : SimulationParams) : VoltageParam → ℚ
  | .voltageTop => p.voltageTop
  | .voltageBottom => p.voltageBottom

/-- `Math.max(0, Math.floor(v))`, as a natural number (the JS value is a
nonnegative integer loop bound). -/
def rasterLo (v : ℚ) : ℕ := (max 0 ⌊v⌋).toNat

/-- `Math.min(N, Math.ceil(v + w))`, as a natural number; a negative JS value
yields an empty loop, matched here by `Int.toNat` clamping to `0`. -/
def rasterHi (N : ℕ) (v w : ℚ) : ℕ := (min (N : ℤ) ⌈v + w⌉).toNat

/-- Row-major list of the cells visited by the nested rasterization loops
`for (y = sy; y < ey; y++) for (x = sx; x < ex; x++)`. -/
def rectCells (sx ex sy ey : ℕ) : List (ℕ × ℕ) :=
  (List.range (ey - sy)).flatMap fun j =>
    (List.range (ex - sx)).map fun i => (sx + i, sy + j)

/-- Sequential constant-value writes `grid[idx(x, y)] = v` over a cell list. -/
def writeCells (N : ℕ) (v : ℚ) (g : ℕ → ℚ) (cells : List (ℕ × ℕ)) : ℕ → ℚ :=
  cells.foldl (fun g c => Function.update g (idx N c.1 c.2) v) g

/-- `updateEpsilonGrid` from `solver.ts`: `epsGrid.fill(epsilonBg)`, then
rasterize the slab with the clipped `floor`/`ceil` bounds. The result does not
depend on the previous grid contents, so the embedding returns a fresh grid. -/
def updateEpsilonGrid (N : ℕ) (slab : SlabState) (p : SimulationParams) : ℕ → ℚ :=
  writeCells N p.epsilonSlab (fun _ => p.epsilonBg)
    (rectCells (rasterLo slab.x) (rasterHi N slab.x slab.width)
               (rasterLo slab.y) (rasterHi N slab.y slab.height))

/-- One plate of `embedPlates`: the clipped rectangle loop, including the
redundant in-bounds check `x >= 0 && x < N && y >= 0 && y < N` of the source
(the `≥ 0` halves are trivial over `ℕ`). -/
def embedPlate (N : ℕ) (p : SimulationParams) (g : ℕ → ℚ) (pl : PlateState) : ℕ → ℚ :=
  (rectCells (rasterLo pl.x) (rasterHi N pl.x pl.width)
             (rasterLo pl.y) (rasterHi N pl.y pl.height)).foldl
    (fun g c =>
      if c.1 < N ∧ c.2 < N then
        Function.update g (idx N c.1 c.2) (paramVoltage p pl.voltageParam)
      else g) g

/-- `embedPlates` from `solver.ts`: plates processed in input order. -/
def embedPlates (N : ℕ) (g : ℕ → ℚ) (plates : List PlateState) (p : SimulationParams) : ℕ → ℚ :=
  plates.foldl (embedPlate N p) g

/-- Top-edge pass of `solveStep`: cells `(x, 0)` are the flat indices `i < N`;
Neumann copies `(x, 1)`, otherwise the cell is grounded to `0`. The writes of
one pass are independent (the pass reads only row `1`), so it is pointwise. -/
def topEdgePass (N : ℕ) (p : SimulationParams) (V : ℕ → ℚ) : ℕ → ℚ :=
  fun i =>
    if i < N then
      match p.boundaryTop with
      | .neumann => V (idx N i 1)
      | .dirichlet => 0
    else V i

/-- Bottom-edge pass of `solveStep`: cells `(x, N-1)` are the flat indices in
`[N*(N-1), N*N)`; Neumann copies `(x, N-2)`. -/
def bottomEdgePass (N : ℕ) (p : SimulationParams) (V : ℕ → ℚ) : ℕ → ℚ :=
  fun i =>
    if N * (N - 1) ≤ i ∧ i < N * N then
      match p.boundaryBottom with
      | .neumann => V (idx N (i - N * (N - 1)) (N - 2))
      | .dirichlet => 0
    else V i

/-- Left-edge pass of `solveStep`: cells `(0, y)` are the flat indices with
`i % N = 0`; Neumann copies `(1, y)`. -/
def leftEdgePass (N : ℕ) (p : SimulationParams) (V : ℕ → ℚ) : ℕ → ℚ :=
  fun i =>
    if i % N = 0 ∧ i < N * N then
      match p.boundaryLeft with
      | .neumann => V (idx N 1 (i / N))
      | .dirichlet => 0
    else V i

/-- Right-edge pass of `solveStep`: cells `(N-1, y)` are the flat indices with
`i % N = N - 1`; Neumann copies `(N-2, y)`. -/
def rightEdgePass (N : ℕ) (p : SimulationParams) (V : ℕ → ℚ) : ℕ → ℚ :=
  fun i =>
    if i % N = N - 1 ∧ i < N * N then
      match p.boundaryRight with
      | .neumann => V (idx N (N - 2) (i / N))
      | .dirichlet => 0
    else V i

/-- Phase 1 of each sweep in `solveStep`: the four edge loops in source order
(top, bottom, left, right); the later passes see the earlier passes' writes at
shared corner cells. -/
def enforceEdges (N : ℕ) (p : SimulationParams) (V : ℕ → ℚ) : ℕ → ℚ :=
  rightEdgePass N p (leftEdgePass N p (bottomEdgePass N p (topEdgePass N p V)))

/-- `epsU = (epsGrid[i] + epsGrid[iU]) * 0.5` : face coefficient as the
arithmetic mean of the two adjacent cell coefficients. -/
def faceEps (e : ℕ → ℚ) (i j : ℕ) : ℚ := (e i + e j) * (1 / 2)

/-- `sumEps = epsU + epsD + epsL + epsR` : the interior-update denominator. -/
def relaxDen (N : ℕ) (e : ℕ → ℚ) (x y : ℕ) : ℚ :=
  faceEps e (idx N x y) (idx N x (y - 1)) + faceEps e (idx N x y) (idx N x (y + 1)) +
    faceEps e (idx N x y) (idx N (x - 1) y) + faceEps e (idx N x y) (idx N (x + 1) y)

/-- `newPot = (epsU*pot[iU] + epsD*pot[iD] + epsL*pot[iL] + epsR*pot[iR]) / sumEps`. -/
def relaxVal (N : ℕ) (e V : ℕ → ℚ) (x y : ℕ) : ℚ :=
  (faceEps e (idx N x y) (idx N x (y - 1)) * V (idx N x (y - 1)) +
      faceEps e (idx N x y) (idx N x (y + 1)) * V (idx N x (y + 1)) +
      faceEps e (idx N x y) (idx N (x - 1) y) * V (idx N (x - 1) y) +
      faceEps e (idx N x y) (idx N (x + 1) y) * V (idx N (x + 1) y)) / relaxDen N e x y

/-- Row-major list of interior cells visited by
`for (y = 1; y < N-1; y++) for (x = 1; x < N-1; x++)`. -/
def interiorCells (N : ℕ) : List (ℕ × ℕ) :=
  (List.range (N - 2)).flatMap fun j =>
    (List.range (N - 2)).map fun i => (i + 1, j + 1)

/-- One in-place Gauss-Seidel cell update `potGrid[i] = newPot`. -/
def gsStep (N : ℕ) (e : ℕ → ℚ) (V : ℕ → ℚ) (c : ℕ × ℕ) : ℕ → ℚ :=
  Function.update V (idx N c.1 c.2) (relaxVal N e V c.1 c.2)

/-- Phase 2 of each sweep in `solveStep`: the interior relaxation loop, in
place, in row-major order. -/
def sweepInterior (N : ℕ) (e : ℕ → ℚ) (V : ℕ → ℚ) : ℕ → ℚ :=
  (interiorCells N).foldl (gsStep N e) V

/-- One full sweep: edge enforcement, then the interior relaxation, then the
plate embedding — the body of the `iter` loop of `solveStep`. -/
def sweepOnce (N : ℕ) (p : SimulationParams) (e : ℕ → ℚ) (plates : List PlateState)
    (V : ℕ → ℚ) : ℕ → ℚ :=
  embedPlates N (sweepInterior N e (enforceEdges N p V)) plates p

/-- The `for (iter = 0; iter < ITERATIONS_PER_FRAME; iter++)` loop of
`solveStep`, with the three phases of the body transcribed inline. -/
def solveStepAux (N : ℕ) (p : SimulationParams) (e : ℕ → ℚ) (plates : List PlateState) :
    ℕ → (ℕ → ℚ) → ℕ → ℚ
  | 0, V => V
  | k + 1, V =>
      solveStepAux N p e plates k
        (embedPlates N (sweepInterior N e (enforceEdges N p V)) plates p)

/-- `solveStep` from `solver.ts`. -/
def solveStep (N : ℕ) (p : SimulationParams) (e : ℕ → ℚ) (plates : List PlateState)
    (V : ℕ → ℚ) : ℕ → ℚ :=
  solveStepAux N p e plates ITERATIONS_PER_FRAME V

/-- RGB triple; components are the integers produced by `Math.round`/`Math.floor`. -/
structure RGB where
  r : ℤ
  g : ℤ
  b : ℤ
deriving DecidableEq

/-- One `(pos, color)` gradient stop of `COLOR_MAPS`. -/
structure ColorStop where
  pos : ℚ
  color : RGB
deriving DecidableEq

/-- `lerpRGB` from `solver.ts` (`Math.round` is round-half-up, as is Mathlib's
`round` on `ℚ`). -/
def lerpRGB (c1 c2 : RGB) (t : ℚ) : RGB :=
  ⟨round ((c1.r : ℚ) + ((c2.r : ℚ) - (c1.r : ℚ)) * t),
   round ((c1.g : ℚ) + ((c2.g : ℚ) - (c1.g : ℚ)) * t),
   round ((c1.b : ℚ) + ((c2.b : ℚ) - (c1.b : ℚ)) * t)⟩

/-- Placeholder for the (never produced) JS `undefined` color of an empty stop
list; all claims assume nonempty stop lists. -/
def blackRGB : RGB := ⟨0, 0, 0⟩

/-- `stops[0].color`. -/
def firstStopColor (stops : List ColorStop) : RGB :=
  ((stops.head?).map ColorStop.color).getD blackRGB

/-- `stops[stops.length - 1].color`. -/
def lastStopColor (stops : List ColorStop) : RGB :=
  ((stops.getLast?).map ColorStop.color).getD blackRGB

/-- The bracketing-stop scan loop of `getMultiStopColor`:
`for (i = 0; i < stops.length - 1; i++) if (t >= stops[i].pos && t <= stops[i+1].pos) ...`. -/
def scanStops (t : ℚ) : List ColorStop → Option RGB
  | s1 :: s2 :: rest =>
      if s1.pos ≤ t ∧ t ≤ s2.pos then
        some (lerpRGB s1.color s2.color ((t - s1.pos) / (s2.pos - s1.pos)))
      else scanStops t (s2 :: rest)
  | _ => none

/-- `getMultiStopColor` from `solver.ts`. -/
def getMultiStopColor (t : ℚ) (stops : List ColorStop) : RGB :=
  if t ≤ 0 then firstStopColor stops
  else if 1 ≤ t then lastStopColor stops
  else (scanStops t stops).getD (lastStopColor stops)

/-- The `jet` entry of `COLOR_MAPS`. -/
def jetStops : List ColorStop :=
  [⟨0, ⟨0, 0, 128⟩⟩, ⟨1/8, ⟨0, 0, 255⟩⟩, ⟨3/8, ⟨0, 255, 255⟩⟩,
   ⟨5/8, ⟨255, 255, 0⟩⟩, ⟨7/8, ⟨255, 0, 0⟩⟩, ⟨1, ⟨128, 0, 0⟩⟩]

/-- The `hot` entry of `COLOR_MAPS`. -/
def hotStops : List ColorStop :=
  [⟨0, ⟨0, 0, 0⟩⟩, ⟨33/100, ⟨255, 0, 0⟩⟩, ⟨66/100, ⟨255, 255, 0⟩⟩, ⟨1, ⟨255, 255, 255⟩⟩]

/-- The `magma` entry of `COLOR_MAPS`. -/
def magmaStops : List ColorStop :=
  [⟨0, ⟨0, 0, 4⟩⟩, ⟨1/4, ⟨80, 18, 123⟩⟩, ⟨1/2, ⟨182, 54, 121⟩⟩,
   ⟨3/4, ⟨251, 135, 97⟩⟩, ⟨1, ⟨252, 253, 191⟩⟩]

/-- The `gray` entry of `COLOR_MAPS`. -/
def grayStops : List ColorStop :=
  [⟨0, ⟨0, 0, 0⟩⟩, ⟨1, ⟨255, 255, 255⟩⟩]

/-- `COLOR_MAPS` as a total function; the `turbo` case is the
`COLOR_MAPS[type] || COLOR_MAPS.jet` fallback (unreachable through `getColor`,
which dispatches `turbo` to the procedural map first). -/
def COLOR_MAPS : ColorMapType → List ColorStop
  | .jet => jetStops
  | .hot => hotStops
  | .magma => magmaStops
  | .gray => grayStops
  | .turbo => jetStops

/-- `getTurboColor` from `solver.ts` (`Math.floor` is `Int.floor`). -/
def getTurboColor (t : ℚ) : RGB :=
  if t < 1/4 then ⟨0, ⌊255 * (t / (1/4))⌋, 255⟩
  else if t < 1/2 then ⟨0, 255, ⌊255 * (1 - (t - 1/4) / (1/4))⌋⟩
  else if t < 3/4 then ⟨⌊255 * ((t - 1/2) / (1/4))⌋, 255, 0⟩
  else ⟨255, ⌊255 * (1 - (t - 3/4) / (1/4))⌋, 0⟩

/-- `getColor` from `solver.ts`. -/
def getColor (t : ℚ) (m : ColorMapType) : RGB :=
  match m with
  | .turbo => getTurboColor t
  | _ => getMultiStopColor t (COLOR_MAPS m)

/-- One RGBA pixel of the heatmap `ImageData`. -/
structure RGBA where
  r : ℤ
  g : ℤ
  b : ℤ
  a : ℤ
deriving DecidableEq

/-- `minV = Math.min(params.voltageBottom, params.voltageTop)`. -/
def heatMinV (p : SimulationParams) : ℚ := min p.voltageBottom p.voltageTop

/-- `maxV = Math.max(params.voltageBottom, params.voltageTop)`. -/
def heatMaxV (p : SimulationParams) : ℚ := max p.voltageBottom p.voltageTop

/-- `range = maxV - minV || 1` : the JS `|| 1` replaces a zero difference by `1`. -/
def heatRange (p : SimulationParams) : ℚ :=
  if heatMaxV p - heatMinV p = 0 then 1 else heatMaxV p - heatMinV p

/-- `t = Math.max(0, Math.min(1, (val - minV) / range))`. -/
def heatT (p : SimulationParams) (v : ℚ) : ℚ :=
  max 0 (min 1 ((v - heatMinV p) / heatRange p))

/-- `generateHeatmapData` from `solver.ts`, as the per-cell pixel map (the
loop writes four independent bytes per cell `i`; alpha is the literal `255`). -/
def generateHeatmapData (N : ℕ) (V : ℕ → ℚ) (p : SimulationParams) : ℕ → RGBA :=
  fun i =>
    let c := getColor (heatT p (V i)) p.colorMap
    ⟨c.r, c.g, c.b, 255⟩

/-- `Ex = -dVdx` with `dVdx = (pot[idx(x+1,y)] - pot[idx(x-1,y)]) / 2`. -/
def fieldEx (N : ℕ) (V : ℕ → ℚ) (x y : ℕ) : ℚ :=
  -((V (idx N (x + 1) y) - V (idx N (x - 1) y)) / 2)

/-- `Ey = -dVdy` with `dVdy = (pot[idx(x,y+1)] - pot[idx(x,y-1)]) / 2`. -/
def fieldEy (N : ℕ) (V : ℕ → ℚ) (x y : ℕ) : ℚ :=
  -((V (idx N x (y + 1)) - V (idx N x (y - 1))) / 2)

/-- `STRIDE = 5` in `renderVectorField`. -/
def STRIDE : ℕ := 5

/-- The sample positions of `for (v = 2; v < N - 2; v += STRIDE)`. -/
def sampleCoords (N : ℕ) : List ℕ :=
  (List.range N).filter fun v => decide (2 ≤ v ∧ v < N - 2 ∧ (v - 2) % STRIDE = 0)

/-- One emitted quiver vector of `renderVectorField`. -/
structure FieldVector where
  x : ℕ
  y : ℕ
  ex : ℚ
  ey : ℚ
deriving DecidableEq

/-- The vectors actually drawn by `renderVectorField`: the sample loop with the
`if (mag < 0.01) continue` guard. The code compares `Math.sqrt(Ex*Ex + Ey*Ey) <
0.01`; since both sides are nonnegative this is equivalent to the square-free
comparison `Ex^2 + Ey^2 < (1/100)^2` used here (`ℚ` has no square root). -/
def vectorSamples (N : ℕ) (V : ℕ → ℚ) : List FieldVector :=
  (sampleCoords N).flatMap fun y =>
    (sampleCoords N).filterMap fun x =>
      if fieldEx N V x y ^ 2 + fieldEy N V x y ^ 2 < (1/100) ^ 2 then none
      else some ⟨x, y, fieldEx N V x y, fieldEy N V x y⟩

/-! ### Basic facts about the flat index and rasterization -/

theorem idx_inj {N x1 y1 x2 y2 : ℕ} (h1 : x1 < N) (h2 : x2 < N)
    (h : idx N x1 y1 = idx N x2 y2) : x1 = x2 ∧ y1 = y2 := by
  have hN : 0 < N := Nat.lt_of_le_of_lt (Nat.zero_le x1) h1
  unfold idx at h
  have hx : x1 = x2 := by
    have e1 : (y1 * N + x1) % N = x1 := by
      rw [Nat.mul_comm, Nat.mul_add_mod, Nat.mod_eq_of_lt h1]
    have e2 : (y2 * N + x2) % N = x2 := by
      rw [Nat.mul_comm, Nat.mul_add_mod, Nat.mod_eq_of_lt h2]
    rw [← e1, ← e2, h]
  refine ⟨hx, ?_⟩
  subst hx
  have hy : y1 * N = y2 * N := by omega
  exact Nat.eq_of_mul_eq_mul_right hN hy

theorem mem_rectCells {sx ex sy ey : ℕ} {c : ℕ × ℕ} :
    c ∈ rectCells sx ex sy ey ↔ (sx ≤ c.1 ∧ c.1 < ex) ∧ (sy ≤ c.2 ∧ c.2 < ey) := by
  unfold rectCells
  simp only [List.mem_flatMap, List.mem_map, List.mem_range]
  constructor
  · rintro ⟨j, hj, i, hi, rfl⟩
    simp only
    omega
  · rintro ⟨⟨h1, h2⟩, h3, h4⟩
    exact ⟨c.2 - sy, by omega, c.1 - sx, by omega, by
      rcases c with ⟨a, b⟩; simp only [Prod.mk.injEq]; omega⟩

theorem writeCells_apply (N : ℕ) (v : ℚ) (g : ℕ → ℚ) (cells : List (ℕ × ℕ)) (i : ℕ) :
    writeCells N v g cells i = if ∃ c ∈ cells, idx N c.1 c.2 = i then v else g i := by
  induction cells generalizing g with
  | nil => simp [writeCells]
  | cons c0 rest ih =>
      have hstep : writeCells N v g (c0 :: rest) i
          = writeCells N v (Function.update g (idx N c0.1 c0.2) v) rest i := rfl
      rw [hstep, ih]
      by_cases hrest : ∃ c ∈ rest, idx N c.1 c.2 = i
      · rw [if_pos hrest, if_pos]
        exact hrest.imp fun c hc => ⟨List.mem_cons_of_mem _ hc.1, hc.2⟩
      · rw [if_neg hrest]
        by_cases h0 : idx N c0.1 c0.2 = i
        · rw [h0, Function.update_same, if_pos ⟨c0, List.mem_cons_self _ _, h0⟩]
        · rw [Function.update_noteq (fun hh => h0 hh.symm), if_neg]
          rintro ⟨c, hc, hci⟩
          rcases List.mem_cons.1 hc with rfl | hc'
          · exact h0 hci
          · exact hrest ⟨c, hc', hci⟩

theorem rasterHi_le (N : ℕ) (v w : ℚ) : rasterHi N v w ≤ N := by
  unfold rasterHi
  rw [Int.toNat_le]
  exact min_le_left _ _

theorem rasterLo_le_iff {v : ℚ} {n : ℕ} : rasterLo v ≤ n ↔ ⌊v⌋ ≤ (n : ℤ) := by
  unfold rasterLo
  rw [Int.toNat_le]
  simp [max_le_iff, Int.ofNat_nonneg]

theorem lt_rasterHi_iff {N : ℕ} {v w : ℚ} {n : ℕ} (hn : n < N) :
    n < rasterHi N v w ↔ (n : ℤ) < ⌈v + w⌉ := by
  unfold rasterHi
  rw [Int.lt_toNat, lt_min_iff]
  constructor
  · exact fun h => h.2
  · exact fun h => ⟨by exact_mod_cast hn, h⟩

/-- Value of the epsilon grid at a cell, in terms of the clipped loop bounds. -/
theorem updateEpsilonGrid_apply (N : ℕ) (slab : SlabState) (p : SimulationParams)
    (cx cy : ℕ) :
    updateEpsilonGrid N slab p (idx N cx cy) =
      if ∃ c ∈ rectCells (rasterLo slab.x) (rasterHi N slab.x slab.width)
              (rasterLo slab.y) (rasterHi N slab.y slab.height), idx N c.1 c.2 = idx N cx cy
      then p.epsilonSlab else p.epsilonBg := by
  unfold updateEpsilonGrid
  rw [writeCells_apply]

/-- C3: after `updateEpsilonGrid` runs, a cell `(cx, cy)` of the grid holds the
slab coefficient exactly when its index lies in
`[⌊x⌋, ⌈x+width⌉) × [⌊y⌋, ⌈y+height⌉)` (the clipping to `[0, N)` is absorbed by
`cx, cy < N` and nonnegativity), and the background coefficient otherwise. -/
theorem updateEpsilonGrid_rect_spec (N : ℕ) (slab : SlabState) (p : SimulationParams)
    (cx cy : ℕ) (hx : cx < N) (hy : cy < N) :
    updateEpsilonGrid N slab p (idx N cx cy) =
      if ⌊slab.x⌋ ≤ (cx : ℤ) ∧ (cx : ℤ) < ⌈slab.x + slab.width⌉ ∧
         ⌊slab.y⌋ ≤ (cy : ℤ) ∧ (cy : ℤ) < ⌈slab.y + slab.height⌉
      then p.epsilonSlab else p.epsilonBg := by
  rw [updateEpsilonGrid_apply]
  congr 1
  rw [eq_iff_iff]
  constructor
  · rintro ⟨c, hc, hci⟩
    rw [mem_rectCells] at hc
    have hcx : c.1 < N := lt_of_lt_of_le hc.1.2 (rasterHi_le _ _ _)
    obtain ⟨e1, e2⟩ := idx_inj hcx hx hci
    subst e1; subst e2
    exact ⟨rasterLo_le_iff.1 hc.1.1, (lt_rasterHi_iff hx).1 hc.1.2,
           rasterLo_le_iff.1 hc.2.1, (lt_rasterHi_iff hy).1 hc.2.2⟩
  · rintro ⟨h1, h2, h3, h4⟩
    refine ⟨(cx, cy), ?_, rfl⟩
    rw [mem_rectCells]
    exact ⟨⟨rasterLo_le_iff.2 h1, (lt_rasterHi_iff hx).2 h2⟩,
           ⟨rasterLo_le_iff.2 h3, (lt_rasterHi_iff hy).2 h4⟩⟩

/-- C3 witness: a slab with fractional bounds partially hanging off the grid. -/
theorem updateEpsilonGrid_rect_spec_witness :
    (3 : ℕ) < 10 ∧ (2 : ℕ) < 10 ∧
    updateEpsilonGrid 10 ⟨(5 : ℚ)/2, -3, 4, 11/2⟩ ⟨4, 1, 100, -100, .turbo,
        .neumann, .neumann, .neumann, .neumann⟩ (idx 10 3 2) =
      if ⌊((5 : ℚ)/2)⌋ ≤ (3 : ℤ) ∧ (3 : ℤ) < ⌈(5 : ℚ)/2 + 4⌉ ∧
         ⌊(-3 : ℚ)⌋ ≤ (2 : ℤ) ∧ (2 : ℤ) < ⌈(-3 : ℚ) + 11/2⌉
      then (4 : ℚ) else 1 :=
  ⟨by norm_num, by norm_num,
    updateEpsilonGrid_rect_spec 10 ⟨(5 : ℚ)/2, -3, 4, 11/2⟩
      ⟨4, 1, 100, -100, .turbo, .neumann, .neumann, .neumann, .neumann⟩ 3 2
      (by norm_num) (by norm_num)⟩

/-! ### C4: positivity of the interior-update denominator -/

theorem faceEps_pos {e : ℕ → ℚ} (hpos : ∀ i, 0 < e i) (i j : ℕ) : 0 < faceEps e i j := by
  unfold faceEps
  have := hpos i
  have := hpos j
  nlinarith

/-- C4: whenever every cell coefficient is strictly positive, the denominator
`epsU + epsD + epsL + epsR` computed for an interior cell is strictly positive,
so the division in the relaxation update is never a division by zero. -/
theorem relaxDen_pos (N : ℕ) (e : ℕ → ℚ) (hpos : ∀ i, 0 < e i) (x y : ℕ)
    (hx1 : 1 ≤ x) (hx2 : x ≤ N - 2) (hy1 : 1 ≤ y) (hy2 : y ≤ N - 2) :
    0 < relaxDen N e x y ∧ relaxDen N e x y ≠ 0 := by
  have h : 0 < relaxDen N e x y := by
    unfold relaxDen
    have h1 := faceEps_pos hpos (idx N x y) (idx N x (y - 1))
    have h2 := faceEps_pos hpos (idx N x y) (idx N x (y + 1))
    have h3 := faceEps_pos hpos (idx N x y) (idx N (x - 1) y)
    have h4 := faceEps_pos hpos (idx N x y) (idx N (x + 1) y)
    linarith
  exact ⟨h, ne_of_gt h⟩

/-- C4 witness: the default configuration (background 1, slab 4) at an interior
cell of the 100-grid. -/
theorem relaxDen_pos_witness :
    (∀ i, 0 < (fun _ : ℕ => (1 : ℚ)) i) ∧ 1 ≤ (7 : ℕ) ∧ (7 : ℕ) ≤ 100 - 2 ∧
    (0 < relaxDen 100 (fun _ => (1 : ℚ)) 7 7 ∧ relaxDen 100 (fun _ => (1 : ℚ)) 7 7 ≠ 0) :=
  ⟨fun _ => one_pos, by norm_num, by norm_num,
    relaxDen_pos 100 (fun _ => 1) (fun _ => one_pos) 7 7 (by norm_num) (by norm_num)
      (by norm_num) (by norm_num)⟩

/-! ### C5: plate embedding, last plate wins -/

/-- The clipped rectangle of a plate contains the cell `(cx, cy)`. -/
def plateCovers (N : ℕ) (pl : PlateState) (cx cy : ℕ) : Prop :=
  (rasterLo pl.x ≤ cx ∧ cx < rasterHi N pl.x pl.width) ∧
    (rasterLo pl.y ≤ cy ∧ cy < rasterHi N pl.y pl.height)

instance (N : ℕ) (pl : PlateState) (cx cy : ℕ) : Decidable (plateCovers N pl cx cy) :=
  inferInstanceAs (Decidable ((rasterLo pl.x ≤ cx ∧ cx < rasterHi N pl.x pl.width) ∧
    (rasterLo pl.y ≤ cy ∧ cy < rasterHi N pl.y pl.height)))

theorem embedPlate_eq_writeCells (N : ℕ) (p : SimulationParams) (g : ℕ → ℚ) (pl : PlateState) :
    embedPlate N p g pl =
      writeCells N (paramVoltage p pl.voltageParam) g
        (rectCells (rasterLo pl.x) (rasterHi N pl.x pl.width)
                   (rasterLo pl.y) (rasterHi N pl.y pl.height)) := by
  unfold embedPlate writeCells
  apply List.foldl_ext
  intro a c hc
  rw [mem_rectCells] at hc
  rw [if_pos ⟨lt_of_lt_of_le hc.1.2 (rasterHi_le _ _ _),
      lt_of_lt_of_le hc.2.2 (rasterHi_le _ _ _)⟩]

theorem embedPlate_apply (N : ℕ) (p : SimulationParams) (g : ℕ → ℚ) (pl : PlateState)
    (cx cy : ℕ) (hx : cx < N) (hy : cy < N) :
    embedPlate N p g pl (idx N cx cy) =
      if plateCovers N pl cx cy then paramVoltage p pl.voltageParam
      else g (idx N cx cy) := by
  rw [embedPlate_eq_writeCells, writeCells_apply]
  congr 1
  rw [eq_iff_iff]
  constructor
  · rintro ⟨c, hc, hci⟩
    rw [mem_rectCells] at hc
    have hcx : c.1 < N := lt_of_lt_of_le hc.1.2 (rasterHi_le _ _ _)
    obtain ⟨e1, e2⟩ := idx_inj hcx hx hci
    subst e1; subst e2
    exact hc
  · intro h
    exact ⟨(cx, cy), mem_rectCells.2 h, rfl⟩

/-- The plates whose clipped rectangle contains `(cx, cy)`, in input order. -/
def coveringPlates (N : ℕ) (plates : List PlateState) (cx cy : ℕ) : List PlateState :=
  plates.filter fun pl => decide (plateCovers N pl cx cy)

/-- C5: after `embedPlates`, a cell covered by at least one plate holds the
voltage of the *last* covering plate in input order, and a cell covered by no
plate is unchanged (both cases are read off `getLast?` of the covering list). -/
theorem coveringPlates_cons (N : ℕ) (pl : PlateState) (rest : List PlateState) (cx cy : ℕ) :
    coveringPlates N (pl :: rest) cx cy =
      if plateCovers N pl cx cy then pl :: coveringPlates N rest cx cy
      else coveringPlates N rest cx cy := by
  unfold coveringPlates
  rw [List.filter_cons]
  by_cases hcov : plateCovers N pl cx cy
  · rw [if_pos (decide_eq_true hcov), if_pos hcov]
  · rw [if_neg (by simpa using hcov), if_neg hcov]

theorem embedPlates_last_covering (N : ℕ) (plates : List PlateState) (p : SimulationParams)
    (g : ℕ → ℚ) (cx cy : ℕ) (hx : cx < N) (hy : cy < N) :
    embedPlates N g plates p (idx N cx cy) =
      (((coveringPlates N plates cx cy).getLast?).map
        (fun pl => paramVoltage p pl.voltageParam)).getD (g (idx N cx cy)) := by
  induction plates generalizing g with
  | nil => simp [embedPlates, coveringPlates]
  | cons pl rest ih =>
      have hstep : embedPlates N g (pl :: rest) p = embedPlates N (embedPlate N p g pl) rest p :=
        rfl
      rw [hstep, ih (embedPlate N p g pl),
        embedPlate_apply N p g pl cx cy hx hy, coveringPlates_cons]
      by_cases hcov : plateCovers N pl cx cy
      · rw [if_pos hcov, if_pos hcov]
        cases hrest : coveringPlates N rest cx cy with
        | nil => simp [hrest]
        | cons q L =>
            rw [List.getLast?_cons_cons]
            cases hgl : (q :: L).getLast? with
            | none => exact absurd (List.getLast?_eq_none_iff.1 hgl) (List.cons_ne_nil q L)
            | some a => simp
      · rw [if_neg hcov, if_neg hcov]

/-- C5 witness: two overlapping plates on a 10-grid; the overlap cell `(3, 3)`
takes the second plate's voltage. -/
theorem embedPlates_last_covering_witness :
    (3 : ℕ) < 10 ∧
    embedPlates 10 (fun _ => 0)
        [⟨0, 0, 5, 5, .voltageTop⟩, ⟨2, 2, 5, 5, .voltageBottom⟩]
        ⟨4, 1, 100, -100, .turbo, .neumann, .neumann, .neumann, .neumann⟩ (idx 10 3 3) =
      (((coveringPlates 10
            [⟨0, 0, 5, 5, .voltageTop⟩, ⟨2, 2, 5, 5, .voltageBottom⟩] 3 3).getLast?).map
        (fun pl => paramVoltage
          ⟨4, 1, 100, -100, .turbo, .neumann, .neumann, .neumann, .neumann⟩
          pl.voltageParam)).getD ((fun _ => (0 : ℚ)) (idx 10 3 3)) :=
  ⟨by norm_num,
    embedPlates_last_covering 10
      [⟨0, 0, 5, 5, .voltageTop⟩, ⟨2, 2, 5, 5, .voltageBottom⟩]
      ⟨4, 1, 100, -100, .turbo, .neumann, .neumann, .neumann, .neumann⟩
      (fun _ => 0) 3 3 (by norm_num) (by norm_num)⟩

/-! ### C1: the interior sweep is an in-place, row-major Gauss-Seidel sweep -/

/-- Strict row-major order on cells: earlier row, or same row and earlier column. -/
def rmLt (c d : ℕ × ℕ) : Prop := c.2 < d.2 ∨ (c.2 = d.2 ∧ c.1 < d.1)

theorem rmLt_trans {a b c : ℕ × ℕ} (h1 : rmLt a b) (h2 : rmLt b c) : rmLt a c := by
  unfold rmLt at h1 h2 ⊢
  omega

theorem rmLt_ne {a b : ℕ × ℕ} (h : rmLt a b) : a ≠ b := by
  intro he
  subst he
  unfold rmLt at h
  omega

/-- The interior cell list is strictly increasing in row-major order. -/
theorem interiorCells_pairwise (N : ℕ) : (interiorCells N).Pairwise rmLt := by
  unfold interiorCells
  rw [List.pairwise_flatMap]
  constructor
  · intro j _
    rw [List.pairwise_map]
    exact (List.pairwise_lt_range _).imp fun h => Or.inr ⟨rfl, by omega⟩
  · refine (List.pairwise_lt_range _).imp ?_
    intro j1 j2 hj x hx y hy
    rw [List.mem_map] at hx hy
    obtain ⟨i1, _, rfl⟩ := hx
    obtain ⟨i2, _, rfl⟩ := hy
    exact Or.inl (by omega)

theorem mem_interiorCells {N : ℕ} {c : ℕ × ℕ} :
    c ∈ interiorCells N ↔ (1 ≤ c.1 ∧ c.1 < N - 1) ∧ (1 ≤ c.2 ∧ c.2 < N - 1) := by
  unfold interiorCells
  simp only [List.mem_flatMap, List.mem_map, List.mem_range]
  constructor
  · rintro ⟨j, hj, i, hi, rfl⟩
    simp only
    omega
  · rintro ⟨⟨h1, h2⟩, h3, h4⟩
    exact ⟨c.2 - 1, by omega, c.1 - 1, by omega, by
      rcases c with ⟨a, b⟩; simp only [Prod.mk.injEq]; omega⟩

/-- Cells not named in the list are untouched by the in-place sweep fold. -/
theorem foldl_gsStep_notmem (N : ℕ) (e : ℕ → ℚ) (L : List (ℕ × ℕ)) (V : ℕ → ℚ) (i : ℕ)
    (h : ∀ c ∈ L, idx N c.1 c.2 ≠ i) : L.foldl (gsStep N e) V i = V i := by
  induction L generalizing V with
  | nil => rfl
  | cons c rest ih =>
      have hstep : (c :: rest).foldl (gsStep N e) V = rest.foldl (gsStep N e) (gsStep N e V c) :=
        rfl
      rw [hstep, ih _ fun d hd => h d (List.mem_cons_of_mem _ hd)]
      exact Function.update_noteq (Ne.symm (h c (List.mem_cons_self _ _))) _ _

/-- C1: for every interior cell `(x, y)` (with `1 ≤ x, y ≤ N-2`), one interior
sweep writes into the cell the coefficient-weighted average of its four
neighbors, where the up and left neighbors are read at their *already updated*
(post-sweep) values and the down and right neighbors at their pre-sweep values:
the in-place row-major Gauss-Seidel update, as opposed to a Jacobi update
(which would read all four neighbors from the pre-sweep grid). -/
theorem sweepInterior_gauss_seidel (N : ℕ) (e V : ℕ → ℚ) (x y : ℕ)
    (hx1 : 1 ≤ x) (hx2 : x < N - 1) (hy1 : 1 ≤ y) (hy2 : y < N - 1) :
    sweepInterior N e V (idx N x y) =
      (faceEps e (idx N x y) (idx N x (y - 1)) * sweepInterior N e V (idx N x (y - 1)) +
          faceEps e (idx N x y) (idx N x (y + 1)) * V (idx N x (y + 1)) +
          faceEps e (idx N x y) (idx N (x - 1) y) * sweepInterior N e V (idx N (x - 1) y) +
          faceEps e (idx N x y) (idx N (x + 1) y) * V (idx N (x + 1) y)) /
        relaxDen N e x y := by
  have hxN : x < N := by omega
  have hc : (x, y) ∈ interiorCells N := mem_interiorCells.2 ⟨⟨hx1, hx2⟩, hy1, hy2⟩
  obtain ⟨L1, L2, hL⟩ := List.append_of_mem hc
  have hpw := interiorCells_pairwise N
  rw [hL] at hpw
  have h12 := List.pairwise_append.1 hpw
  have hcL2 : ∀ d ∈ L2, rmLt (x, y) d := (List.pairwise_cons.1 h12.2.1).1
  have hL1c : ∀ d ∈ L1, rmLt d (x, y) := fun d hd => h12.2.2 d hd _ (List.mem_cons_self _ _)
  have hmemL1 : ∀ d ∈ L1, d ∈ interiorCells N := by
    intro d hd; rw [hL]; exact List.mem_append_left _ hd
  have hmemCL2 : ∀ d ∈ (x, y) :: L2, d ∈ interiorCells N := by
    intro d hd; rw [hL]; exact List.mem_append_right _ hd
  have hne : ∀ d : ℕ × ℕ, d ∈ interiorCells N → ∀ u : ℕ × ℕ, u.1 < N → d ≠ u →
      idx N d.1 d.2 ≠ idx N u.1 u.2 := by
    intro d hd u hu hdu he
    have hd1 : d.1 < N := by
      have := mem_interiorCells.1 hd; omega
    obtain ⟨e1, e2⟩ := idx_inj hd1 hu he
    exact hdu (Prod.ext_iff.2 ⟨e1, e2⟩)
  -- the value written at (x, y) is the update computed on the state after L1
  have hW : sweepInterior N e V (idx N x y)
      = relaxVal N e (L1.foldl (gsStep N e) V) x y := by
    unfold sweepInterior
    rw [hL, List.foldl_append]
    have hstep : ((x, y) :: L2).foldl (gsStep N e) (L1.foldl (gsStep N e) V)
        = L2.foldl (gsStep N e) (gsStep N e (L1.foldl (gsStep N e) V) (x, y)) := rfl
    rw [hstep, foldl_gsStep_notmem]
    · exact Function.update_same _ _ _
    · intro d hd
      exact hne d (hmemCL2 d (List.mem_cons_of_mem _ hd)) (x, y) hxN
        (Ne.symm (rmLt_ne (hcL2 d hd)))
  -- cells written before (x, y) keep their final value after the whole sweep
  have hkeep : ∀ u : ℕ × ℕ, u.1 < N → rmLt u (x, y) →
      sweepInterior N e V (idx N u.1 u.2) = (L1.foldl (gsStep N e) V) (idx N u.1 u.2) := by
    intro u hu hru
    unfold sweepInterior
    rw [hL, List.foldl_append]
    apply foldl_gsStep_notmem
    intro d hd
    have hdu : d ≠ u := by
      rcases List.mem_cons.1 hd with rfl | hd'
      · exact Ne.symm (rmLt_ne hru)
      · exact Ne.symm (rmLt_ne (rmLt_trans hru (hcL2 d hd')))
    exact hne d (hmemCL2 d hd) u hu hdu
  -- cells visited after (x, y) still hold their pre-sweep value when (x, y) is updated
  have hpre : ∀ u : ℕ × ℕ, u.1 < N → rmLt (x, y) u →
      (L1.foldl (gsStep N e) V) (idx N u.1 u.2) = V (idx N u.1 u.2) := by
    intro u hu hru
    apply foldl_gsStep_notmem
    intro d hd
    exact hne d (hmemL1 d hd) u hu (rmLt_ne (rmLt_trans (hL1c d hd) hru))
  have hup : sweepInterior N e V (idx N x (y - 1))
      = (L1.foldl (gsStep N e) V) (idx N x (y - 1)) :=
    hkeep (x, y - 1) hxN (Or.inl (by omega))
  have hleft : sweepInterior N e V (idx N (x - 1) y)
      = (L1.foldl (gsStep N e) V) (idx N (x - 1) y) :=
    hkeep (x - 1, y) (by omega) (Or.inr ⟨rfl, by omega⟩)
  have hdown : (L1.foldl (gsStep N e) V) (idx N x (y + 1)) = V (idx N x (y + 1)) :=
    hpre (x, y + 1) hxN (Or.inl (by omega))
  have hright : (L1.foldl (gsStep N e) V) (idx N (x + 1) y) = V (idx N (x + 1) y) :=
    hpre (x + 1, y) (by omega) (Or.inr ⟨rfl, by omega⟩)
  rw [hW, hup, hleft]
  unfold relaxVal
  rw [hdown, hright]

/-- C1 witness: interior cell `(2, 2)` of a 4-grid with unit coefficients. -/
theorem sweepInterior_gauss_seidel_witness :
    (1 : ℕ) ≤ 2 ∧ (2 : ℕ) < 4 - 1 ∧
    sweepInterior 4 (fun _ => 1) (fun i => (i : ℚ)) (idx 4 2 2) =
      (faceEps (fun _ => 1) (idx 4 2 2) (idx 4 2 1) *
            sweepInterior 4 (fun _ => 1) (fun i => (i : ℚ)) (idx 4 2 1) +
          faceEps (fun _ => 1) (idx 4 2 2) (idx 4 2 3) * ((idx 4 2 3 : ℕ) : ℚ) +
          faceEps (fun _ => 1) (idx 4 2 2) (idx 4 1 2) *
            sweepInterior 4 (fun _ => 1) (fun i => (i : ℚ)) (idx 4 1 2) +
          faceEps (fun _ => 1) (idx 4 2 2) (idx 4 3 2) * ((idx 4 3 2 : ℕ) : ℚ)) /
        relaxDen 4 (fun _ => 1) 2 2 :=
  ⟨by norm_num, by norm_num,
    sweepInterior_gauss_seidel 4 (fun _ => 1) (fun i => (i : ℚ)) 2 2
      (by norm_num) (by norm_num) (by norm_num) (by norm_num)⟩

/-! ### C2: batch structure of solveStep -/

theorem solveStepAux_eq_iterate (N : ℕ) (p : SimulationParams) (e : ℕ → ℚ)
    (plates : List PlateState) (k : ℕ) (V : ℕ → ℚ) :
    solveStepAux N p e plates k V = (sweepOnce N p e plates)^[k] V := by
  induction k generalizing V with
  | zero => rfl
  | succ n ih =>
      rw [solveStepAux, ih, Function.iterate_succ_apply]
      rfl

/-- C2: a `solveStep` call performs exactly `ITERATIONS_PER_FRAME = 40` full
sweeps, each sweep being edge enforcement, then the interior update, then the
plate embedding, in that order (`sweepOnce` is that ordered composition). -/
theorem solveStep_batch_structure (N : ℕ) (p : SimulationParams) (e : ℕ → ℚ)
    (plates : List PlateState) (V : ℕ → ℚ) :
    solveStep N p e plates V = (sweepOnce N p e plates)^[ITERATIONS_PER_FRAME] V ∧
      ITERATIONS_PER_FRAME = 40 :=
  ⟨solveStepAux_eq_iterate N p e plates ITERATIONS_PER_FRAME V, rfl⟩

/-! ### C6: a fixed point of one full sweep is preserved by any batch count -/

/-- C6: if one full sweep (edges, interior, plates) leaves the potential grid
unchanged, then `solveStepAux` with any batch count `k` — in particular
`solveStep` itself with `ITERATIONS_PER_FRAME` — returns it unchanged. -/
theorem solveStep_preserves_fixed_point (N : ℕ) (p : SimulationParams) (e : ℕ → ℚ)
    (plates : List PlateState) (V : ℕ → ℚ) (k : ℕ)
    (h : sweepOnce N p e plates V = V) :
    solveStepAux N p e plates k V = V ∧ solveStep N p e plates V = V := by
  have hk : ∀ m, solveStepAux N p e plates m V = V := by
    intro m
    rw [solveStepAux_eq_iterate]
    exact Function.iterate_fixed h m
  exact ⟨hk k, hk ITERATIONS_PER_FRAME⟩

/-! ### Constant grids under all-Neumann edges and no plates -/

theorem topEdgePass_const (N : ℕ) (p : SimulationParams) (c : ℚ)
    (ht : p.boundaryTop = .neumann) : topEdgePass N p (fun _ => c) = fun _ => c := by
  funext i
  simp [topEdgePass, ht]

theorem bottomEdgePass_const (N : ℕ) (p : SimulationParams) (c : ℚ)
    (hb : p.boundaryBottom = .neumann) : bottomEdgePass N p (fun _ => c) = fun _ => c := by
  funext i
  simp [bottomEdgePass, hb]

theorem leftEdgePass_const (N : ℕ) (p : SimulationParams) (c : ℚ)
    (hl : p.boundaryLeft = .neumann) : leftEdgePass N p (fun _ => c) = fun _ => c := by
  funext i
  simp [leftEdgePass, hl]

theorem rightEdgePass_const (N : ℕ) (p : SimulationParams) (c : ℚ)
    (hr : p.boundaryRight = .neumann) : rightEdgePass N p (fun _ => c) = fun _ => c := by
  funext i
  simp [rightEdgePass, hr]

theorem relaxDen_pos_of_pos {N : ℕ} {e : ℕ → ℚ} (hpos : ∀ i, 0 < e i) (x y : ℕ) :
    0 < relaxDen N e x y := by
  unfold relaxDen
  have h1 := faceEps_pos hpos (idx N x y) (idx N x (y - 1))
  have h2 := faceEps_pos hpos (idx N x y) (idx N x (y + 1))
  have h3 := faceEps_pos hpos (idx N x y) (idx N (x - 1) y)
  have h4 := faceEps_pos hpos (idx N x y) (idx N (x + 1) y)
  linarith

theorem relaxVal_const {N : ℕ} {e : ℕ → ℚ} (hpos : ∀ i, 0 < e i) (c : ℚ) (x y : ℕ) :
    relaxVal N e (fun _ => c) x y = c := by
  unfold relaxVal
  rw [div_eq_iff (relaxDen_pos_of_pos hpos x y).ne']
  unfold relaxDen
  ring

theorem sweepInterior_const (N : ℕ) (e : ℕ → ℚ) (hpos : ∀ i, 0 < e i) (c : ℚ) :
    sweepInterior N e (fun _ => c) = fun _ => c := by
  unfold sweepInterior
  generalize interiorCells N = L
  induction L with
  | nil => rfl
  | cons d rest ih =>
      rw [List.foldl_cons]
      have h1 : gsStep N e (fun _ => c) d = fun _ => c := by
        unfold gsStep
        rw [relaxVal_const hpos]
        exact Function.update_eq_self _ _
      rw [h1, ih]

theorem sweepOnce_const (N : ℕ) (p : SimulationParams) (e : ℕ → ℚ) (c : ℚ)
    (hpos : ∀ i, 0 < e i)
    (ht : p.boundaryTop = .neumann) (hb : p.boundaryBottom = .neumann)
    (hl : p.boundaryLeft = .neumann) (hr : p.boundaryRight = .neumann) :
    sweepOnce N p e [] (fun _ => c) = fun _ => c := by
  unfold sweepOnce enforceEdges
  rw [topEdgePass_const N p c ht, bottomEdgePass_const N p c hb, leftEdgePass_const N p c hl,
    rightEdgePass_const N p c hr, sweepInterior_const N e hpos c]
  rfl

/-- The all-Neumann, no-plate default parameter set of `constants.ts`. -/
def allNeumannParams : SimulationParams :=
  ⟨4, 1, 100, -100, .turbo, .neumann, .neumann, .neumann, .neumann⟩

/-- C9 counterexample: with the default all-Neumann boundary configuration and
no plates, the constant grids `0` and `1` are two *distinct* fixed points of the
full sweep on a 4-grid with unit coefficients, so the iteration has no unique
fixed point and its limit depends on the initial potential grid. -/
theorem gauss_seidel_cex_two_fixed_points :
    sweepOnce 4 allNeumannParams (fun _ => 1) [] (fun _ => (0 : ℚ)) = (fun _ => 0) ∧
    sweepOnce 4 allNeumannParams (fun _ => 1) [] (fun _ => (1 : ℚ)) = (fun _ => 1) ∧
    (fun _ : ℕ => (0 : ℚ)) ≠ (fun _ : ℕ => (1 : ℚ)) :=
  ⟨sweepOnce_const 4 allNeumannParams (fun _ => 1) 0 (fun _ => one_pos) rfl rfl rfl rfl,
   sweepOnce_const 4 allNeumannParams (fun _ => 1) 1 (fun _ => one_pos) rfl rfl rfl rfl,
   fun h => by have := congrFun h 0; norm_num at this⟩

/-- C9 (amended): for a strictly positive coefficient grid, the iteration need
not have a unique fixed point: with all four edges Neumann and no plates, every
constant potential grid is a fixed point of the full sweep and is returned
unchanged by any batch count, so the converged result depends on the initial
potential grid rather than being a unique solution. -/
theorem gauss_seidel_const_grids_fixed (N : ℕ) (p : SimulationParams) (e : ℕ → ℚ)
    (c : ℚ) (k : ℕ) (hpos : ∀ i, 0 < e i)
    (ht : p.boundaryTop = .neumann) (hb : p.boundaryBottom = .neumann)
    (hl : p.boundaryLeft = .neumann) (hr : p.boundaryRight = .neumann) :
    sweepOnce N p e [] (fun _ => c) = (fun _ => c) ∧
    solveStepAux N p e [] k (fun _ => c) = (fun _ => c) ∧
    solveStep N p e [] (fun _ => c) = (fun _ => c) := by
  have h := sweepOnce_const N p e c hpos ht hb hl hr
  refine ⟨h, ?_, ?_⟩
  · rw [solveStepAux_eq_iterate]
    exact Function.iterate_fixed h k
  · rw [solveStep, solveStepAux_eq_iterate]
    exact Function.iterate_fixed h ITERATIONS_PER_FRAME

/-- C9 witness: the amended statement at a concrete configuration. -/
theorem gauss_seidel_const_grids_fixed_witness :
    (∀ i, 0 < (fun _ : ℕ => (1 : ℚ)) i) ∧
    (sweepOnce 5 allNeumannParams (fun _ => 1) [] (fun _ => (7 : ℚ)) = (fun _ => 7) ∧
      solveStepAux 5 allNeumannParams (fun _ => 1) [] 3 (fun _ => (7 : ℚ)) = (fun _ => 7) ∧
      solveStep 5 allNeumannParams (fun _ => 1) [] (fun _ => (7 : ℚ)) = (fun _ => 7)) :=
  ⟨fun _ => one_pos,
    gauss_seidel_const_grids_fixed 5 allNeumannParams (fun _ => 1) 7 3
      (fun _ => one_pos) rfl rfl rfl rfl⟩

/-- C6 witness: a concrete fixed point (the zero grid under all-Neumann edges
and no plates) is preserved by `solveStepAux 7` and by `solveStep`. -/
theorem solveStep_preserves_fixed_point_witness :
    sweepOnce 4 allNeumannParams (fun _ => 1) [] (fun _ => (0 : ℚ)) = (fun _ => 0) ∧
    (solveStepAux 4 allNeumannParams (fun _ => 1) [] 7 (fun _ => (0 : ℚ)) = (fun _ => 0) ∧
      solveStep 4 allNeumannParams (fun _ => 1) [] (fun _ => (0 : ℚ)) = (fun _ => 0)) :=
  have hfix : sweepOnce 4 allNeumannParams (fun _ => 1) [] (fun _ => (0 : ℚ)) = (fun _ => 0) :=
    sweepOnce_const 4 allNeumannParams (fun _ => 1) 0 (fun _ => one_pos) rfl rfl rfl rfl
  ⟨hfix, solveStep_preserves_fixed_point 4 allNeumannParams (fun _ => 1) [] (fun _ => 0) 7 hfix⟩

/-! ### C7: color-map endpoint behavior -/

/-- C7: for any table-driven color map with a first stop `s` and a last stop
`c`, every input `t ≤ 0` returns exactly the first stop's color and every input
`t ≥ 1` returns exactly the last stop's color; in particular `t = 0` and
`t = 1` return the endpoint colors and all out-of-range inputs clamp to them. -/
theorem getMultiStopColor_endpoints (stops : List ColorStop) (s c : ColorStop) (t : ℚ)
    (hh : stops.head? = some s) (hl : stops.getLast? = some c) :
    (t ≤ 0 → getMultiStopColor t stops = s.color) ∧
      (1 ≤ t → getMultiStopColor t stops = c.color) := by
  constructor
  · intro h
    unfold getMultiStopColor
    rw [if_pos h]
    unfold firstStopColor
    rw [hh]
    rfl
  · intro h
    unfold getMultiStopColor
    rw [if_neg (by push_neg; linarith), if_pos h]
    unfold lastStopColor
    rw [hl]
    rfl

/-- C7 witness: the `jet` table at the out-of-range input `t = 2` clamps to the
last stop's color. -/
theorem getMultiStopColor_endpoints_witness :
    jetStops.head? = some ⟨0, ⟨0, 0, 128⟩⟩ ∧ jetStops.getLast? = some ⟨1, ⟨128, 0, 0⟩⟩ ∧
    (((2 : ℚ) ≤ 0 → getMultiStopColor 2 jetStops = RGB.mk 0 0 128) ∧
      ((1 : ℚ) ≤ 2 → getMultiStopColor 2 jetStops = RGB.mk 128 0 0)) :=
  ⟨rfl, rfl,
    getMultiStopColor_endpoints jetStops ⟨0, ⟨0, 0, 128⟩⟩ ⟨1, ⟨128, 0, 0⟩⟩ 2 rfl rfl⟩

/-! ### C8: a uniform potential grid emits no field vectors -/

/-- C8: on a constant potential grid both centered-difference components of
every sample vanish, so every sampled magnitude is below the `0.01` threshold
and `renderVectorField` emits no vector at all. -/
theorem vectorSamples_uniform_empty (N x y : ℕ) (V : ℕ → ℚ) (c : ℚ)
    (hV : V = fun _ => c) :
    (fieldEx N V x y = 0 ∧ fieldEy N V x y = 0) ∧ vectorSamples N V = [] := by
  subst hV
  have hEx : ∀ a b : ℕ, fieldEx N (fun _ => c) a b = 0 := by
    intro a b
    unfold fieldEx
    ring
  have hEy : ∀ a b : ℕ, fieldEy N (fun _ => c) a b = 0 := by
    intro a b
    unfold fieldEy
    ring
  refine ⟨⟨hEx x y, hEy x y⟩, ?_⟩
  unfold vectorSamples
  rw [List.flatMap_eq_nil_iff]
  intro b _
  rw [List.filterMap_eq_nil_iff]
  intro a _
  rw [hEx a b, hEy a b, if_pos]
  norm_num

/-- C8 witness: a 20-grid held at the constant potential 5 yields an empty
vector list (and zero components at the sample `(7, 2)`). -/
theorem vectorSamples_uniform_empty_witness :
    (fun _ : ℕ => (5 : ℚ)) = (fun _ => 5) ∧
    ((fieldEx 20 (fun _ => (5 : ℚ)) 7 2 = 0 ∧ fieldEy 20 (fun _ => (5 : ℚ)) 7 2 = 0) ∧
      vectorSamples 20 (fun _ => (5 : ℚ)) = []) :=
  ⟨rfl, vectorSamples_uniform_empty 20 7 2 (fun _ => 5) 5 rfl⟩

/-! ### C10: heatmap generation is total and clamped, alpha is 255 -/

/-- C10: the heatmap normalization divisor is never zero (it falls back to `1`
exactly when the two boundary voltages coincide), the normalized value fed to
the color lookup always lies in `[0, 1]`, and every emitted pixel has alpha
`255`. -/
theorem generateHeatmapData_safe (N : ℕ) (V : ℕ → ℚ) (p : SimulationParams) (i : ℕ) :
    (p.voltageTop = p.voltageBottom → heatRange p = 1) ∧ heatRange p ≠ 0 ∧
      (0 ≤ heatT p (V i) ∧ heatT p (V i) ≤ 1) ∧
      (generateHeatmapData N V p i).a = 255 := by
  refine ⟨?_, ?_, ⟨le_max_left _ _, ?_⟩, rfl⟩
  · intro h
    unfold heatRange heatMaxV heatMinV
    rw [h]
    simp
  · unfold heatRange
    split
    · exact one_ne_zero
    · assumption
  · exact max_le (by norm_num) (min_le_left _ _)

/-- C10 witness: equal boundary voltages (`top = bottom = 42`); the divisor is
`1`, the normalized value is clamped, alpha is `255`. -/
theorem generateHeatmapData_safe_witness :
    ((42 : ℚ) = 42 → heatRange ⟨4, 1, 42, 42, .jet, .neumann, .neumann, .neumann, .neumann⟩ = 1) ∧
    heatRange ⟨4, 1, 42, 42, .jet, .neumann, .neumann, .neumann, .neumann⟩ ≠ 0 ∧
    (0 ≤ heatT ⟨4, 1, 42, 42, .jet, .neumann, .neumann, .neumann, .neumann⟩
        ((fun _ : ℕ => (3 : ℚ)) 0) ∧
      heatT ⟨4, 1, 42, 42, .jet, .neumann, .neumann, .neumann, .neumann⟩
        ((fun _ : ℕ => (3 : ℚ)) 0) ≤ 1) ∧
    (generateHeatmapData 10 (fun _ => (3 : ℚ))
        ⟨4, 1, 42, 42, .jet, .neumann, .neumann, .neumann, .neumann⟩ 0).a = 255 :=
  generateHeatmapData_safe 10 (fun _ => 3)
    ⟨4, 1, 42, 42, .jet, .neumann, .neumann, .neumann, .neumann⟩ 0

end EMSandbox
